import Mathlib

/-!
Verification of the reference-counting and atomic-access core of the
sh-pointer library.

The development shallowly embeds, in Lean, the parts of the source this
verification concerns:

* `sh::pointer::control` — the packed 64-bit counter (`counter_t` is a
  64-bit unsigned integer; the control/weak count lives in the high 32
  bits, the value/strong count in the low 32 bits) together with its
  operations `shared_inc`, `shared_dec`, `weak_inc`, `weak_dec`,
  `shared_inc_if_nonzero` and `value_dec_for_shared_to_weak`.
  Machine arithmetic is embedded as `Nat` with explicit `% 2^64`
  (`fetch_add`/`fetch_sub` wraparound) and the `uint32_t` truncation
  `to_value_count` as `% 2^32`.
* the callbacks fired through the control-operations table are embedded
  as an event list (`Callback.destruct` / `Callback.deallocate`) emitted
  by each counter step.
* client usage of the counter is embedded as a small state machine over
  traces of counter operations: a step is enabled only when the calling
  client actually holds the reference it is releasing (or a reference
  permitting the increment), mirroring the library's usage contract, and
  increments are guarded by the documented overflow ceiling of the
  packed 32-bit sub-ranges.

All definitions are made from the C++ source; the sole exception,
clearly marked, is the spec-described "plain" variant of `weak_dec`
used by the refinement claim.
-/

namespace ShPointer

/-- `2^64`: the modulus of `counter_t` (`std::uint_fast64_t`, 64 bits wide). -/
def wordMod : ℕ := 18446744073709551616

/-- `2^32`: the modulus of one packed 32-bit half of the counter. -/
def halfMod : ℕ := 4294967296

/-- `control::value_one = 1`: one reference on the associated value. -/
def value_one : ℕ := 1

/-- `control::control_one = 1 << 32`: one reference on the control block. -/
def control_one : ℕ := 4294967296

/-- `control::weak_one = control_one`. -/
def weak_one : ℕ := control_one

/-- `control::shared_one = control_one | value_one = 2^32 + 1`
(the two halves occupy disjoint bits, so the OR is a sum). -/
def shared_one : ℕ := 4294967297

/-- `control::to_value_count`: truncation of the counter to `uint32_t`,
keeping the value (low) half. -/
def to_value_count (c : ℕ) : ℕ := c % halfMod

/-- The control (high) half of the packed counter word. -/
def to_control_count (c : ℕ) : ℕ := c / halfMod % halfMod

/-- 64-bit wrapping addition, as `std::atomic::fetch_add` performs on
`counter_t`. -/
def addWrap (q c : ℕ) : ℕ := (c + q) % wordMod

/-- 64-bit wrapping subtraction, as `std::atomic::fetch_sub` performs on
`counter_t` (two's-complement wraparound). -/
def subWrap (q c : ℕ) : ℕ := (c + (wordMod - q)) % wordMod

/-- The callbacks a counter decrement can fire through the
`control_operations` table. -/
inductive Callback where
  | destruct
  | deallocate
deriving DecidableEq, Repr

/-- `control::shared_inc`: relaxed `fetch_add` of `shared_one`. -/
def sharedInc (c : ℕ) : ℕ := addWrap shared_one c

/-- `control::shared_dec`: release `fetch_sub` of `shared_one`; if the
pre-decrement counter equals `shared_one` this was the very last
reference, so destruct then deallocate; else if the pre-decrement value
half equals 1 this was the last value reference, so destruct only. -/
def sharedDec (c : ℕ) : ℕ × List Callback :=
  let previous := c
  let next := subWrap shared_one c
  if previous = shared_one then
    (next, [Callback.destruct, Callback.deallocate])
  else if to_value_count previous = 1 then
    (next, [Callback.destruct])
  else
    (next, [])

/-- `control::weak_inc`: relaxed `fetch_add` of `weak_one`. -/
def weakInc (c : ℕ) : ℕ := addWrap weak_one c

/-- `control::weak_dec`, including the source's fast path: an
acquire-ordered peek that equals `weak_one` skips the subtraction and
deallocates immediately; otherwise `fetch_sub` of `weak_one`, with
deallocation if the pre-decrement counter equals `weak_one`. -/
def weakDec (c : ℕ) : ℕ × List Callback :=
  if c = weak_one then
    (c, [Callback.deallocate])
  else
    let previous := c
    let next := subWrap weak_one c
    if previous = weak_one then
      (next, [Callback.deallocate])
    else
      (next, [])

/-- Modelled from the spec: the "plain" variant of `weak_dec` that the
refinement claim compares against — it always performs the `fetch_sub`
of one control unit and deallocates exactly when the pre-decrement value
equals one control unit.  (This variant is described by the spec's
`weak_dec` sentence with the optimization omitted; it is not present in
the source, which only contains the fast-path version `weakDec`.) -/
def weakDecPlain (c : ℕ) : ℕ × List Callback :=
  let previous := c
  let next := subWrap weak_one c
  if previous = weak_one then
    (next, [Callback.deallocate])
  else
    (next, [])

/-- Result of `control::shared_inc_if_nonzero`. -/
inductive SharedIncIfNonzeroResult where
  | no_inc
  | added_shared_inc
deriving DecidableEq, Repr

/-- `control::shared_inc_if_nonzero`: the compare-exchange loop succeeds
(adding `shared_one`) only while the current value half is nonzero.  In
the sequential embedding the loop either succeeds on the loaded value or
exits immediately. -/
def sharedIncIfNonzero (c : ℕ) : ℕ × SharedIncIfNonzeroResult :=
  if to_value_count c > 0 then
    (addWrap shared_one c, SharedIncIfNonzeroResult.added_shared_inc)
  else
    (c, SharedIncIfNonzeroResult.no_inc)

/-- `control::value_dec_for_shared_to_weak`: release `fetch_sub` of
`value_one` only; destruct if the pre-decrement value half equals 1. -/
def valueDecForSharedToWeak (c : ℕ) : ℕ × List Callback :=
  let previous := c
  let next := subWrap value_one c
  if to_value_count previous = 1 then
    (next, [Callback.destruct])
  else
    (next, [])

/-! ### The counter-usage state machine

A trace of counter operations is valid when each operation is performed
by a client that holds the reference the operation presupposes: a
`shared_dec`/`value_dec_for_shared_to_weak` releases a held strong
reference, a `weak_dec` releases a held weak reference, copies
(`shared_inc`, `weak_inc`) and promotion attempts require a live
reference to copy or promote from, and increments respect the counter's
documented 32-bit sub-range ceiling.  The machine tracks the outstanding
strong tokens `s` and weak tokens `w` alongside the raw counter word
`c`, which is updated exclusively by the raw source-derived operations
above, and counts the callbacks those raw operations fire. -/

/-- The counter operations a client can invoke. -/
inductive Op where
  | sharedIncOp
  | sharedDecOp
  | weakIncOp
  | weakDecOp
  | sharedIncIfNonzeroOp
  | valueDecForSharedToWeakOp
deriving DecidableEq, Repr

/-- Trace state: outstanding strong tokens `s`, outstanding weak tokens
`w`, the raw counter word `c`, and how many times each callback has
fired so far. -/
structure CState where
  s : ℕ
  w : ℕ
  c : ℕ
  destructs : ℕ
  deallocs : ℕ
deriving DecidableEq, Repr

/-- Documented overflow ceiling for the packed 32-bit sub-ranges. -/
def ceiling : ℕ := 4294967295

/-- Whether an operation is permitted in a state, per the usage
contract: decrements release a token the client holds, increments
require a live reference and respect the sub-range ceiling. -/
def guard : Op → CState → Bool
  | Op.sharedIncOp, st => 1 ≤ st.s && st.s + st.w < ceiling
  | Op.sharedDecOp, st => 1 ≤ st.s
  | Op.weakIncOp, st => 1 ≤ st.s + st.w && st.s + st.w < ceiling
  | Op.weakDecOp, st => 1 ≤ st.w
  | Op.sharedIncIfNonzeroOp, st => 1 ≤ st.s + st.w && st.s + st.w < ceiling
  | Op.valueDecForSharedToWeakOp, st => 1 ≤ st.s

/-- Apply an enabled operation: the raw counter moves by the raw
source-derived function, the token counts move by the operation's
meaning, and fired callbacks are tallied. -/
def applyOp : Op → CState → CState
  | Op.sharedIncOp, st =>
      { st with s := st.s + 1, c := sharedInc st.c }
  | Op.sharedDecOp, st =>
      let r := sharedDec st.c
      { st with
        s := st.s - 1
        c := r.1
        destructs := st.destructs + r.2.count Callback.destruct
        deallocs := st.deallocs + r.2.count Callback.deallocate }
  | Op.weakIncOp, st =>
      { st with w := st.w + 1, c := weakInc st.c }
  | Op.weakDecOp, st =>
      let r := weakDec st.c
      { st with
        w := st.w - 1
        c := r.1
        destructs := st.destructs + r.2.count Callback.destruct
        deallocs := st.deallocs + r.2.count Callback.deallocate }
  | Op.sharedIncIfNonzeroOp, st =>
      let r := sharedIncIfNonzero st.c
      { st with
        s := match r.2 with
             | SharedIncIfNonzeroResult.added_shared_inc => st.s + 1
             | SharedIncIfNonzeroResult.no_inc => st.s
        c := r.1 }
  | Op.valueDecForSharedToWeakOp, st =>
      let r := valueDecForSharedToWeak st.c
      { st with
        s := st.s - 1
        w := st.w + 1
        c := r.1
        destructs := st.destructs + r.2.count Callback.destruct
        deallocs := st.deallocs + r.2.count Callback.deallocate }

/-- One guarded step; `none` when the operation is not permitted. -/
def step (op : Op) (st : CState) : Option CState :=
  if guard op st then some (applyOp op st) else none

/-- The initial state: one strong reference, counter `shared_one`
(both halves equal to 1), no callbacks fired — exactly how
`value_convertible_to_control` constructs the block
(`m_ctrl{ control::shared_one, ... }`). -/
def init : CState :=
  { s := 1, w := 0, c := shared_one, destructs := 0, deallocs := 0 }

/-- Run a trace of operations from a state. -/
def runFrom (st : CState) (ops : List Op) : Option CState :=
  ops.foldl (fun acc op => acc.bind (step op)) (some st)

/-- Run a trace of operations from the initial state. -/
def run (ops : List Op) : Option CState :=
  runFrom init ops

/-- The invariant tied to every reachable trace state: while any token
is outstanding the raw counter word is exactly the packed encoding of
the token counts; once all tokens are gone the block has been
deallocated (the counter word is `0`, or `weak_one` when the `weak_dec`
fast path skipped the final subtraction); the token total respects the
ceiling; and each callback has fired exactly once precisely when the
corresponding count reached zero. -/
def Inv (st : CState) : Prop :=
  (st.s + st.w ≠ 0 → st.c = st.s + (st.s + st.w) * halfMod) ∧
  (st.s + st.w = 0 → st.c = 0 ∨ st.c = weak_one) ∧
  st.s + st.w ≤ ceiling ∧
  ((st.s = 0 ∧ st.destructs = 1) ∨ (st.s ≠ 0 ∧ st.destructs = 0)) ∧
  ((st.s + st.w = 0 ∧ st.deallocs = 1) ∨ (st.s + st.w ≠ 0 ∧ st.deallocs = 0))

theorem inv_init : Inv init := by
  refine ⟨fun _ => rfl, fun h => absurd h (by decide), by decide, by decide, by decide⟩

/-- Packed encoding of token counts into the counter word: the value
(low) half holds the strong count, the control (high) half holds the
total count. -/
def enc (s w : ℕ) : ℕ := s + (s + w) * halfMod

theorem enc_lt {s w : ℕ} (h : s + w ≤ ceiling) : enc s w < wordMod := by
  simp only [enc, ceiling, halfMod, wordMod] at *
  omega

theorem to_value_count_enc {s w : ℕ} (h : s + w ≤ ceiling) :
    to_value_count (enc s w) = s := by
  simp only [enc, ceiling, halfMod, to_value_count] at *
  omega

theorem to_control_count_enc {s w : ℕ} (h : s + w ≤ ceiling) :
    to_control_count (enc s w) = s + w := by
  simp only [enc, ceiling, halfMod, to_control_count] at *
  have hdiv : (s + (s + w) * 4294967296) / 4294967296 = s + w := by
    omega
  rw [hdiv]
  omega

theorem pack_inj {H s w r q : ℕ} (hs : s < H) (hr : r < H) :
    s + (s + w) * H = r + q * H → s = r ∧ s + w = q := by
  intro he
  have hH : 0 < H := by omega
  have hmod := congrArg (fun x => x % H) he
  simp only [Nat.add_mul_mod_self_right, Nat.mod_eq_of_lt hs,
    Nat.mod_eq_of_lt hr] at hmod
  have hdiv := congrArg (fun x => x / H) he
  simp only [Nat.add_mul_div_right _ _ hH, Nat.div_eq_of_lt hs,
    Nat.div_eq_of_lt hr] at hdiv
  omega

theorem enc_eq_shared_one_iff {s w : ℕ} (h : s + w ≤ ceiling) :
    enc s w = shared_one ↔ s = 1 ∧ w = 0 := by
  have hrepr : shared_one = 1 + 1 * halfMod := by decide
  constructor
  · intro he
    rw [enc, hrepr] at he
    have hs : s < halfMod := by
      simp only [ceiling] at h
      simp only [halfMod]
      omega
    have h1 : (1 : ℕ) < halfMod := by decide
    have hp := pack_inj hs h1 he
    omega
  · rintro ⟨rfl, rfl⟩
    decide

theorem enc_eq_weak_one_iff {s w : ℕ} (h : s + w ≤ ceiling) :
    enc s w = weak_one ↔ s = 0 ∧ w = 1 := by
  have hrepr : weak_one = 0 + 1 * halfMod := by decide
  constructor
  · intro he
    rw [enc, hrepr] at he
    have hs : s < halfMod := by
      simp only [ceiling] at h
      simp only [halfMod]
      omega
    have h0 : (0 : ℕ) < halfMod := by decide
    have hp := pack_inj hs h0 he
    omega
  · rintro ⟨rfl, rfl⟩
    decide

theorem addWrap_eq {q c : ℕ} (h : c + q < wordMod) : addWrap q c = c + q := by
  simp only [addWrap, wordMod] at *
  omega

theorem subWrap_eq {q c : ℕ} (h1 : q ≤ c) (h2 : c < wordMod) (h3 : q ≤ wordMod) :
    subWrap q c = c - q := by
  simp only [subWrap, wordMod] at *
  omega

/-- `shared_inc` on an encoded state adds one strong token. -/
theorem sharedInc_enc {s w : ℕ} (h : s + w < ceiling) :
    sharedInc (enc s w) = enc (s + 1) w := by
  rw [sharedInc, addWrap_eq]
  · simp only [enc, shared_one, halfMod]
    ring
  · have := enc_lt (s := s + 1) (w := w) (by omega)
    simp only [enc, ceiling, halfMod, wordMod, shared_one] at *
    omega

/-- `weak_inc` on an encoded state adds one weak token. -/
theorem weakInc_enc {s w : ℕ} (h : s + w < ceiling) :
    weakInc (enc s w) = enc s (w + 1) := by
  rw [weakInc, addWrap_eq]
  · simp only [enc, weak_one, control_one, halfMod]
    ring
  · have := enc_lt (s := s) (w := w + 1) (by omega)
    simp only [enc, ceiling, halfMod, wordMod, weak_one, control_one] at *
    omega

/-- `shared_dec` on an encoded state with a strong token outstanding:
it removes one strong token, destructs exactly when the last strong
token is released, and additionally deallocates exactly when no weak
token remains either. -/
theorem sharedDec_enc {s w : ℕ} (hs : 1 ≤ s) (h : s + w ≤ ceiling) :
    sharedDec (enc s w) =
      (enc (s - 1) w,
       if s = 1 ∧ w = 0 then [Callback.destruct, Callback.deallocate]
       else if s = 1 then [Callback.destruct] else []) := by
  have hlt : enc s w < wordMod := enc_lt h
  have hge : shared_one ≤ enc s w := by
    simp only [enc, shared_one, halfMod]
    omega
  have hsub : subWrap shared_one (enc s w) = enc (s - 1) w := by
    rw [subWrap_eq hge hlt (by simp only [shared_one, wordMod]; omega)]
    simp only [enc, shared_one, halfMod]
    omega
  rw [sharedDec]
  simp only [hsub]
  rcases Decidable.em (s = 1 ∧ w = 0) with hc | hc
  · rw [if_pos ((enc_eq_shared_one_iff h).mpr hc), if_pos hc]
  · rw [if_neg (fun hx => hc ((enc_eq_shared_one_iff h).mp hx)), if_neg hc,
      to_value_count_enc h]
    rcases Decidable.em (s = 1) with h1 | h1
    · rw [if_pos h1, if_pos h1]
    · rw [if_neg h1, if_neg h1]

/-- `weak_dec` on an encoded state with a weak token outstanding:
deallocates exactly when it releases the very last token; the fast path
skips the subtraction in that case, leaving the (freed) counter word at
`weak_one`. -/
theorem weakDec_enc {s w : ℕ} (hw : 1 ≤ w) (h : s + w ≤ ceiling) :
    weakDec (enc s w) =
      (if s = 0 ∧ w = 1 then enc s w else enc s (w - 1),
       if s = 0 ∧ w = 1 then [Callback.deallocate] else []) := by
  have hlt : enc s w < wordMod := enc_lt h
  have hge : weak_one ≤ enc s w := by
    simp only [enc, weak_one, control_one, halfMod]
    omega
  have hsub : subWrap weak_one (enc s w) = enc s (w - 1) := by
    rw [subWrap_eq hge hlt (by simp only [weak_one, control_one, wordMod]; omega)]
    simp only [enc, weak_one, control_one, halfMod]
    omega
  rw [weakDec]
  rcases Decidable.em (s = 0 ∧ w = 1) with hc | hc
  · rw [if_pos ((enc_eq_weak_one_iff h).mpr hc), if_pos hc, if_pos hc]
  · rw [if_neg (fun hx => hc ((enc_eq_weak_one_iff h).mp hx)), if_neg hc, if_neg hc,
      if_neg (fun hx => hc ((enc_eq_weak_one_iff h).mp hx)), hsub]

/-- `shared_inc_if_nonzero` on an encoded state: succeeds (adding one
strong token) exactly when a strong token is outstanding. -/
theorem sharedIncIfNonzero_enc {s w : ℕ} (h : s + w < ceiling) :
    sharedIncIfNonzero (enc s w) =
      if s = 0 then (enc s w, SharedIncIfNonzeroResult.no_inc)
      else (enc (s + 1) w, SharedIncIfNonzeroResult.added_shared_inc) := by
  rw [sharedIncIfNonzero, to_value_count_enc (by omega)]
  rcases Decidable.em (s = 0) with h0 | h0
  · rw [if_neg (by omega), if_pos h0]
  · rw [if_pos (by omega), if_neg h0]
    have := sharedInc_enc (s := s) (w := w) h
    rw [sharedInc] at this
    rw [this]

/-- `value_dec_for_shared_to_weak` on an encoded state with a strong
token outstanding: demotes one strong token to a weak token, destructing
exactly when the last strong token is demoted. -/
theorem valueDec_enc {s w : ℕ} (hs : 1 ≤ s) (h : s + w ≤ ceiling) :
    valueDecForSharedToWeak (enc s w) =
      (enc (s - 1) (w + 1),
       if s = 1 then [Callback.destruct] else []) := by
  have hlt : enc s w < wordMod := enc_lt h
  have hge : value_one ≤ enc s w := by
    simp only [enc, value_one, halfMod]
    omega
  have hsub : subWrap value_one (enc s w) = enc (s - 1) (w + 1) := by
    rw [subWrap_eq hge hlt (by simp only [value_one, wordMod]; omega)]
    simp only [enc, value_one, halfMod]
    omega
  rw [valueDecForSharedToWeak]
  simp only [hsub, to_value_count_enc h]
  rcases Decidable.em (s = 1) with h1 | h1
  · rw [if_pos h1, if_pos h1]
  · rw [if_neg h1, if_neg h1]

/-- Branch form of `sharedDec_enc`: releasing the very last token. -/
theorem sharedDec_enc_last :
    sharedDec (enc 1 0) = (enc 0 0, [Callback.destruct, Callback.deallocate]) := by
  rw [sharedDec_enc (by omega) (by decide)]
  rw [if_pos ⟨rfl, rfl⟩]

/-- Branch form of `sharedDec_enc`: releasing the last strong token
while weak tokens remain. -/
theorem sharedDec_enc_strong {w : ℕ} (hw : 1 ≤ w) (h : 1 + w ≤ ceiling) :
    sharedDec (enc 1 w) = (enc 0 w, [Callback.destruct]) := by
  rw [sharedDec_enc (by omega) h]
  rw [if_neg (by omega), if_pos rfl]

/-- Branch form of `sharedDec_enc`: other strong tokens remain. -/
theorem sharedDec_enc_many {s w : ℕ} (hs : 2 ≤ s) (h : s + w ≤ ceiling) :
    sharedDec (enc s w) = (enc (s - 1) w, []) := by
  rw [sharedDec_enc (by omega) h]
  rw [if_neg (by omega), if_neg (by omega)]

/-- Branch form of `weakDec_enc`: releasing the very last token (the
fast path fires, skipping the subtraction). -/
theorem weakDec_enc_last :
    weakDec (enc 0 1) = (enc 0 1, [Callback.deallocate]) := by
  rw [weakDec_enc (by omega) (by decide)]
  rw [if_pos ⟨rfl, rfl⟩, if_pos ⟨rfl, rfl⟩]

/-- Branch form of `weakDec_enc`: other tokens remain. -/
theorem weakDec_enc_rest {s w : ℕ} (hw : 1 ≤ w) (hne : ¬(s = 0 ∧ w = 1))
    (h : s + w ≤ ceiling) :
    weakDec (enc s w) = (enc s (w - 1), []) := by
  rw [weakDec_enc hw h]
  rw [if_neg hne, if_neg hne]

/-- Branch form of `sharedIncIfNonzero_enc`: no strong token remains,
so the promotion fails and the counter is untouched. -/
theorem sharedIncIfNonzero_enc_zero {w : ℕ} (h : w < ceiling) :
    sharedIncIfNonzero (enc 0 w) = (enc 0 w, SharedIncIfNonzeroResult.no_inc) := by
  rw [sharedIncIfNonzero_enc (by omega)]
  rw [if_pos rfl]

/-- Branch form of `sharedIncIfNonzero_enc`: a strong token remains, so
the promotion succeeds. -/
theorem sharedIncIfNonzero_enc_pos {s w : ℕ} (hs : 1 ≤ s) (h : s + w < ceiling) :
    sharedIncIfNonzero (enc s w) =
      (enc (s + 1) w, SharedIncIfNonzeroResult.added_shared_inc) := by
  rw [sharedIncIfNonzero_enc h]
  rw [if_neg (by omega)]

/-- Branch form of `valueDec_enc`: demoting the last strong token. -/
theorem valueDec_enc_last {w : ℕ} (h : 1 + w ≤ ceiling) :
    valueDecForSharedToWeak (enc 1 w) = (enc 0 (w + 1), [Callback.destruct]) := by
  rw [valueDec_enc (by omega) h]
  rw [if_pos rfl]

/-- Branch form of `valueDec_enc`: other strong tokens remain. -/
theorem valueDec_enc_many {s w : ℕ} (hs : 2 ≤ s) (h : s + w ≤ ceiling) :
    valueDecForSharedToWeak (enc s w) = (enc (s - 1) (w + 1), []) := by
  rw [valueDec_enc (by omega) h]
  rw [if_neg (by omega)]

theorem count_destruct_pair :
    List.count Callback.destruct [Callback.destruct, Callback.deallocate] = 1 := rfl

theorem count_deallocate_pair :
    List.count Callback.deallocate [Callback.destruct, Callback.deallocate] = 1 := rfl

theorem count_destruct_single :
    List.count Callback.destruct [Callback.destruct] = 1 := rfl

theorem count_deallocate_single :
    List.count Callback.deallocate [Callback.destruct] = 0 := rfl

theorem count_destruct_da :
    List.count Callback.destruct [Callback.deallocate] = 0 := rfl

theorem count_deallocate_da :
    List.count Callback.deallocate [Callback.deallocate] = 1 := rfl

theorem count_destruct_nil :
    List.count Callback.destruct ([] : List Callback) = 0 := rfl

theorem count_deallocate_nil :
    List.count Callback.deallocate ([] : List Callback) = 0 := rfl

/-- Assemble the invariant for an explicit state. -/
theorem inv_mk {s w c d da : ℕ}
    (k1 : s + w ≠ 0 → c = s + (s + w) * halfMod)
    (k2 : s + w = 0 → c = 0 ∨ c = weak_one)
    (k3 : s + w ≤ ceiling)
    (k4 : (s = 0 ∧ d = 1) ∨ (s ≠ 0 ∧ d = 0))
    (k5 : (s + w = 0 ∧ da = 1) ∨ (s + w ≠ 0 ∧ da = 0)) :
    Inv ⟨s, w, c, d, da⟩ :=
  ⟨k1, k2, k3, k4, k5⟩

/-- Every enabled step preserves the reachability invariant. -/
theorem inv_step {op : Op} {st st2 : CState} (hinv : Inv st)
    (hs : step op st = some st2) : Inv st2 := by
  obtain ⟨h1, h2, h3, h4, h5⟩ := hinv
  rcases st with ⟨s, w, c, d, da⟩
  rw [step] at hs
  split at hs
  case isFalse => exact absurd hs (by simp)
  case isTrue hg =>
    obtain rfl : st2 = applyOp op ⟨s, w, c, d, da⟩ := by
      injection hs with h
      exact h.symm
    simp only at h1 h2 h3 h4 h5
    rcases op with _ | _ | _ | _ | _ | _
    · -- sharedIncOp
      simp only [guard, Bool.and_eq_true, decide_eq_true_eq] at hg
      have hc : c = enc s w := h1 (by omega)
      subst hc
      have happ : applyOp Op.sharedIncOp ⟨s, w, enc s w, d, da⟩ =
          ⟨s + 1, w, enc (s + 1) w, d, da⟩ := by
        simp only [applyOp, sharedInc_enc (show s + w < ceiling by omega)]
      rw [happ]
      exact inv_mk (fun _ => rfl) (fun hz => absurd hz (by omega))
        (by omega) (by omega) (by omega)
    · -- sharedDecOp
      simp only [guard, decide_eq_true_eq] at hg
      have hc : c = enc s w := h1 (by omega)
      subst hc
      rcases Decidable.em (s = 1 ∧ w = 0) with h10 | h10
      · obtain ⟨rfl, rfl⟩ := h10
        have happ : applyOp Op.sharedDecOp ⟨1, 0, enc 1 0, d, da⟩ =
            ⟨0, 0, enc 0 0, d + 1, da + 1⟩ := by
          simp only [applyOp, sharedDec_enc_last,
            count_destruct_pair, count_deallocate_pair]
        rw [happ]
        exact inv_mk (fun _ => rfl) (fun _ => Or.inl rfl)
          (by omega) (by omega) (by omega)
      · rcases Decidable.em (s = 1) with h11 | h11
        · subst h11
          have happ : applyOp Op.sharedDecOp ⟨1, w, enc 1 w, d, da⟩ =
              ⟨0, w, enc 0 w, d + 1, da⟩ := by
            simp only [applyOp, sharedDec_enc_strong (by omega) h3,
              count_destruct_single, count_deallocate_single, Nat.add_zero]
          rw [happ]
          exact inv_mk (fun _ => rfl) (fun hz => absurd hz (by omega))
            (by omega) (by omega) (by omega)
        · have happ : applyOp Op.sharedDecOp ⟨s, w, enc s w, d, da⟩ =
              ⟨s - 1, w, enc (s - 1) w, d, da⟩ := by
            simp only [applyOp, sharedDec_enc_many (by omega) h3,
              count_destruct_nil, count_deallocate_nil, Nat.add_zero]
          rw [happ]
          exact inv_mk (fun _ => rfl) (fun hz => absurd hz (by omega))
            (by omega) (by omega) (by omega)
    · -- weakIncOp
      simp only [guard, Bool.and_eq_true, decide_eq_true_eq] at hg
      have hc : c = enc s w := h1 (by omega)
      subst hc
      have happ : applyOp Op.weakIncOp ⟨s, w, enc s w, d, da⟩ =
          ⟨s, w + 1, enc s (w + 1), d, da⟩ := by
        simp only [applyOp, weakInc_enc (show s + w < ceiling by omega)]
      rw [happ]
      exact inv_mk (fun _ => rfl) (fun hz => absurd hz (by omega))
        (by omega) (by omega) (by omega)
    · -- weakDecOp
      simp only [guard, decide_eq_true_eq] at hg
      have hc : c = enc s w := h1 (by omega)
      subst hc
      rcases Decidable.em (s = 0 ∧ w = 1) with h01 | h01
      · obtain ⟨rfl, rfl⟩ := h01
        have happ : applyOp Op.weakDecOp ⟨0, 1, enc 0 1, d, da⟩ =
            ⟨0, 0, enc 0 1, d, da + 1⟩ := by
          simp only [applyOp, weakDec_enc_last,
            count_destruct_da, count_deallocate_da, Nat.add_zero]
        rw [happ]
        exact inv_mk (fun hz => absurd hz (by omega)) (fun _ => Or.inr (by decide))
          (by omega) (by omega) (by omega)
      · have happ : applyOp Op.weakDecOp ⟨s, w, enc s w, d, da⟩ =
            ⟨s, w - 1, enc s (w - 1), d, da⟩ := by
          simp only [applyOp, weakDec_enc_rest hg h01 h3,
            count_destruct_nil, count_deallocate_nil, Nat.add_zero]
        rw [happ]
        exact inv_mk (fun _ => rfl) (fun hz => absurd hz (by omega))
          (by omega) (by omega) (by omega)
    · -- sharedIncIfNonzeroOp
      simp only [guard, Bool.and_eq_true, decide_eq_true_eq] at hg
      have hc : c = enc s w := h1 (by omega)
      subst hc
      rcases Decidable.em (s = 0) with h0 | h0
      · subst h0
        have happ : applyOp Op.sharedIncIfNonzeroOp ⟨0, w, enc 0 w, d, da⟩ =
            ⟨0, w, enc 0 w, d, da⟩ := by
          simp only [applyOp, sharedIncIfNonzero_enc_zero (show w < ceiling by omega)]
        rw [happ]
        exact inv_mk (fun _ => rfl) (fun hz => absurd hz (by omega))
          (by omega) (by omega) (by omega)
      · have happ : applyOp Op.sharedIncIfNonzeroOp ⟨s, w, enc s w, d, da⟩ =
            ⟨s + 1, w, enc (s + 1) w, d, da⟩ := by
          simp only [applyOp,
            sharedIncIfNonzero_enc_pos (by omega) (show s + w < ceiling by omega)]
        rw [happ]
        exact inv_mk (fun _ => rfl) (fun hz => absurd hz (by omega))
          (by omega) (by omega) (by omega)
    · -- valueDecForSharedToWeakOp
      simp only [guard, decide_eq_true_eq] at hg
      have hc : c = enc s w := h1 (by omega)
      subst hc
      rcases Decidable.em (s = 1) with h11 | h11
      · subst h11
        have happ : applyOp Op.valueDecForSharedToWeakOp ⟨1, w, enc 1 w, d, da⟩ =
            ⟨0, w + 1, enc 0 (w + 1), d + 1, da⟩ := by
          simp only [applyOp, valueDec_enc_last h3,
            count_destruct_single, count_deallocate_single, Nat.add_zero]
        rw [happ]
        exact inv_mk (fun _ => rfl) (fun hz => absurd hz (by omega))
          (by omega) (by omega) (by omega)
      · have happ : applyOp Op.valueDecForSharedToWeakOp ⟨s, w, enc s w, d, da⟩ =
            ⟨s - 1, w + 1, enc (s - 1) (w + 1), d, da⟩ := by
          simp only [applyOp, valueDec_enc_many (by omega) h3,
            count_destruct_nil, count_deallocate_nil, Nat.add_zero]
        rw [happ]
        exact inv_mk (fun _ => rfl) (fun hz => absurd hz (by omega))
          (by omega) (by omega) (by omega)

theorem foldl_none (ops : List Op) :
    ops.foldl (fun acc op => acc.bind (step op)) none = none := by
  induction ops with
  | nil => rfl
  | cons op ops ih => simpa using ih

theorem runFrom_cons_some {st st1 : CState} {op : Op} (ops : List Op)
    (h : step op st = some st1) :
    runFrom st (op :: ops) = runFrom st1 ops := by
  rw [runFrom, runFrom, List.foldl_cons]
  simp [h]

theorem runFrom_cons_none {st : CState} {op : Op} (ops : List Op)
    (h : step op st = none) :
    runFrom st (op :: ops) = none := by
  rw [runFrom, List.foldl_cons]
  simp [h, foldl_none]

/-- The invariant holds at every state reached from an invariant
state. -/
theorem inv_runFrom {st st' : CState} {ops : List Op} (hinv : Inv st)
    (h : runFrom st ops = some st') : Inv st' := by
  induction ops generalizing st with
  | nil =>
      rw [runFrom, List.foldl_nil] at h
      injection h with h
      rwa [← h]
  | cons op ops ih =>
      cases hstep : step op st with
      | none => rw [runFrom_cons_none ops hstep] at h; exact absurd h (by simp)
      | some st1 =>
          rw [runFrom_cons_some ops hstep] at h
          exact ih (inv_step hinv hstep) h

/-- At any invariant (reachable) state, a step fires the destruct
callback exactly when the operation is one of the two value decrements
and the pre-decrement value half equals 1, and fires the deallocate
callback exactly when the operation is one of the two control
decrements and the pre-decrement control half equals 1. -/
theorem step_callbacks {op : Op} {st st2 : CState} (hinv : Inv st)
    (hs : step op st = some st2) :
    (st2.destructs = st.destructs + 1 ↔
      (op = Op.sharedDecOp ∨ op = Op.valueDecForSharedToWeakOp) ∧
      to_value_count st.c = 1) ∧
    (st2.deallocs = st.deallocs + 1 ↔
      (op = Op.sharedDecOp ∨ op = Op.weakDecOp) ∧
      to_control_count st.c = 1) := by
  obtain ⟨h1, h2, h3, h4, h5⟩ := hinv
  rcases st with ⟨s, w, c, d, da⟩
  rw [step] at hs
  split at hs
  case isFalse => exact absurd hs (by simp)
  case isTrue hg =>
    obtain rfl : st2 = applyOp op ⟨s, w, c, d, da⟩ := by
      injection hs with h
      exact h.symm
    simp only at h1 h2 h3 h4 h5
    rcases op with _ | _ | _ | _ | _ | _
    · -- sharedIncOp: no callback
      simp only [guard, Bool.and_eq_true, decide_eq_true_eq] at hg
      have hc : c = enc s w := h1 (by omega)
      subst hc
      have happ : applyOp Op.sharedIncOp ⟨s, w, enc s w, d, da⟩ =
          ⟨s + 1, w, enc (s + 1) w, d, da⟩ := by
        simp only [applyOp, sharedInc_enc (show s + w < ceiling by omega)]
      rw [happ]
      dsimp only
      constructor
      · exact ⟨fun hx => absurd hx (by omega),
          fun hx => by rcases hx.1 with hop | hop <;> exact Op.noConfusion hop⟩
      · exact ⟨fun hx => absurd hx (by omega),
          fun hx => by rcases hx.1 with hop | hop <;> exact Op.noConfusion hop⟩
    · -- sharedDecOp
      simp only [guard, decide_eq_true_eq] at hg
      have hc : c = enc s w := h1 (by omega)
      subst hc
      have hval : to_value_count (enc s w) = s := to_value_count_enc h3
      have hctl : to_control_count (enc s w) = s + w := to_control_count_enc h3
      rcases Decidable.em (s = 1 ∧ w = 0) with h10 | h10
      · obtain ⟨rfl, rfl⟩ := h10
        have happ : applyOp Op.sharedDecOp ⟨1, 0, enc 1 0, d, da⟩ =
            ⟨0, 0, enc 0 0, d + 1, da + 1⟩ := by
          simp only [applyOp, sharedDec_enc_last,
            count_destruct_pair, count_deallocate_pair]
        rw [happ]
        dsimp only
        constructor
        · exact ⟨fun _ => ⟨Or.inl rfl, hval⟩, fun _ => rfl⟩
        · exact ⟨fun _ => ⟨Or.inl rfl, by rw [hctl]⟩, fun _ => rfl⟩
      · rcases Decidable.em (s = 1) with h11 | h11
        · subst h11
          have happ : applyOp Op.sharedDecOp ⟨1, w, enc 1 w, d, da⟩ =
              ⟨0, w, enc 0 w, d + 1, da⟩ := by
            simp only [applyOp, sharedDec_enc_strong (by omega) h3,
              count_destruct_single, count_deallocate_single, Nat.add_zero]
          rw [happ]
          dsimp only
          constructor
          · exact ⟨fun _ => ⟨Or.inl rfl, hval⟩, fun _ => rfl⟩
          · refine ⟨fun hx => absurd hx (by omega), fun hx => ?_⟩
            rw [hctl] at hx
            omega
        · have happ : applyOp Op.sharedDecOp ⟨s, w, enc s w, d, da⟩ =
              ⟨s - 1, w, enc (s - 1) w, d, da⟩ := by
            simp only [applyOp, sharedDec_enc_many (by omega) h3,
              count_destruct_nil, count_deallocate_nil, Nat.add_zero]
          rw [happ]
          dsimp only
          constructor
          · refine ⟨fun hx => absurd hx (by omega), fun hx => ?_⟩
            rw [hval] at hx
            omega
          · refine ⟨fun hx => absurd hx (by omega), fun hx => ?_⟩
            rw [hctl] at hx
            omega
    · -- weakIncOp: no callback
      simp only [guard, Bool.and_eq_true, decide_eq_true_eq] at hg
      have hc : c = enc s w := h1 (by omega)
      subst hc
      have happ : applyOp Op.weakIncOp ⟨s, w, enc s w, d, da⟩ =
          ⟨s, w + 1, enc s (w + 1), d, da⟩ := by
        simp only [applyOp, weakInc_enc (show s + w < ceiling by omega)]
      rw [happ]
      dsimp only
      constructor
      · exact ⟨fun hx => absurd hx (by omega),
          fun hx => by rcases hx.1 with hop | hop <;> exact Op.noConfusion hop⟩
      · exact ⟨fun hx => absurd hx (by omega),
          fun hx => by rcases hx.1 with hop | hop <;> exact Op.noConfusion hop⟩
    · -- weakDecOp
      simp only [guard, decide_eq_true_eq] at hg
      have hc : c = enc s w := h1 (by omega)
      subst hc
      have hval : to_value_count (enc s w) = s := to_value_count_enc h3
      have hctl : to_control_count (enc s w) = s + w := to_control_count_enc h3
      rcases Decidable.em (s = 0 ∧ w = 1) with h01 | h01
      · obtain ⟨rfl, rfl⟩ := h01
        have happ : applyOp Op.weakDecOp ⟨0, 1, enc 0 1, d, da⟩ =
            ⟨0, 0, enc 0 1, d, da + 1⟩ := by
          simp only [applyOp, weakDec_enc_last,
            count_destruct_da, count_deallocate_da, Nat.add_zero]
        rw [happ]
        dsimp only
        constructor
        · refine ⟨fun hx => absurd hx (by omega), fun hx => ?_⟩
          rcases hx.1 with hop | hop <;> exact Op.noConfusion hop
        · exact ⟨fun _ => ⟨Or.inr rfl, by rw [hctl]⟩, fun _ => rfl⟩
      · have happ : applyOp Op.weakDecOp ⟨s, w, enc s w, d, da⟩ =
            ⟨s, w - 1, enc s (w - 1), d, da⟩ := by
          simp only [applyOp, weakDec_enc_rest hg h01 h3,
            count_destruct_nil, count_deallocate_nil, Nat.add_zero]
        rw [happ]
        dsimp only
        constructor
        · refine ⟨fun hx => absurd hx (by omega), fun hx => ?_⟩
          rcases hx.1 with hop | hop <;> exact Op.noConfusion hop
        · refine ⟨fun hx => absurd hx (by omega), fun hx => ?_⟩
          rw [hctl] at hx
          omega
    · -- sharedIncIfNonzeroOp: no callback
      simp only [guard, Bool.and_eq_true, decide_eq_true_eq] at hg
      have hc : c = enc s w := h1 (by omega)
      subst hc
      rcases Decidable.em (s = 0) with h0 | h0
      · subst h0
        have happ : applyOp Op.sharedIncIfNonzeroOp ⟨0, w, enc 0 w, d, da⟩ =
            ⟨0, w, enc 0 w, d, da⟩ := by
          simp only [applyOp, sharedIncIfNonzero_enc_zero (show w < ceiling by omega)]
        rw [happ]
        dsimp only
        constructor
        · exact ⟨fun hx => absurd hx (by omega),
            fun hx => by rcases hx.1 with hop | hop <;> exact Op.noConfusion hop⟩
        · exact ⟨fun hx => absurd hx (by omega),
            fun hx => by rcases hx.1 with hop | hop <;> exact Op.noConfusion hop⟩
      · have happ : applyOp Op.sharedIncIfNonzeroOp ⟨s, w, enc s w, d, da⟩ =
            ⟨s + 1, w, enc (s + 1) w, d, da⟩ := by
          simp only [applyOp,
            sharedIncIfNonzero_enc_pos (by omega) (show s + w < ceiling by omega)]
        rw [happ]
        dsimp only
        constructor
        · exact ⟨fun hx => absurd hx (by omega),
            fun hx => by rcases hx.1 with hop | hop <;> exact Op.noConfusion hop⟩
        · exact ⟨fun hx => absurd hx (by omega),
            fun hx => by rcases hx.1 with hop | hop <;> exact Op.noConfusion hop⟩
    · -- valueDecForSharedToWeakOp
      simp only [guard, decide_eq_true_eq] at hg
      have hc : c = enc s w := h1 (by omega)
      subst hc
      have hval : to_value_count (enc s w) = s := to_value_count_enc h3
      have hctl : to_control_count (enc s w) = s + w := to_control_count_enc h3
      rcases Decidable.em (s = 1) with h11 | h11
      · subst h11
        have happ : applyOp Op.valueDecForSharedToWeakOp ⟨1, w, enc 1 w, d, da⟩ =
            ⟨0, w + 1, enc 0 (w + 1), d + 1, da⟩ := by
          simp only [applyOp, valueDec_enc_last h3,
            count_destruct_single, count_deallocate_single, Nat.add_zero]
        rw [happ]
        dsimp only
        constructor
        · exact ⟨fun _ => ⟨Or.inr rfl, hval⟩, fun _ => rfl⟩
        · refine ⟨fun hx => absurd hx (by omega), fun hx => ?_⟩
          rcases hx.1 with hop | hop <;> exact Op.noConfusion hop
      · have happ : applyOp Op.valueDecForSharedToWeakOp ⟨s, w, enc s w, d, da⟩ =
            ⟨s - 1, w + 1, enc (s - 1) (w + 1), d, da⟩ := by
          simp only [applyOp, valueDec_enc_many (by omega) h3,
            count_destruct_nil, count_deallocate_nil, Nat.add_zero]
        rw [happ]
        dsimp only
        constructor
        · refine ⟨fun hx => absurd hx (by omega), fun hx => ?_⟩
          rw [hval] at hx
          omega
        · refine ⟨fun hx => absurd hx (by omega), fun hx => ?_⟩
          rcases hx.1 with hop | hop <;> exact Op.noConfusion hop


/-- C3: for every Counter state reachable from the initial state (both
halves equal to 1) by any sequence of counter operations, the value
(low) half of the packed counter word is at most the control (high)
half. -/
theorem counter_value_le_control (ops : List Op) (st : CState)
    (h : run ops = some st) :
    to_value_count st.c ≤ to_control_count st.c := by
  have hinv : Inv st := inv_runFrom inv_init (by rwa [run] at h)
  obtain ⟨h1, h2, h3, _, _⟩ := hinv
  rcases Decidable.em (st.s + st.w = 0) with h0 | h0
  · rcases h2 h0 with hc | hc <;> rw [hc] <;> decide
  · have hc := h1 h0
    rw [hc,
      show st.s + (st.s + st.w) * halfMod = enc st.s st.w from rfl,
      to_value_count_enc h3, to_control_count_enc h3]
    omega

/-- Witness for C3 at the state reached by one extra `shared_inc`. -/
theorem counter_value_le_control_witness :
    to_value_count 8589934594 ≤ to_control_count 8589934594 :=
  counter_value_le_control [Op.sharedIncOp] ⟨2, 0, 8589934594, 0, 0⟩ (by decide)

/-- C1: along every valid trace of counter operations from the initial
state, each of the two callbacks fires at most once; destruct has fired
exactly once precisely when the last strong token has been released, and
deallocate exactly once precisely when every token has been released (so
deallocation never precedes destruction); and a single enabled step
fires destruct exactly when it is a value decrement whose pre-decrement
value half equals 1, and deallocate exactly when it is a control
decrement whose pre-decrement control half equals 1. -/
theorem counter_callbacks_once (ops : List Op) (op : Op) (st st2 : CState)
    (h : run ops = some st) :
    st.destructs ≤ 1 ∧
    st.deallocs ≤ 1 ∧
    st.deallocs ≤ st.destructs ∧
    (st.destructs = 1 ↔ st.s = 0) ∧
    (st.deallocs = 1 ↔ st.s + st.w = 0) ∧
    (step op st = some st2 →
      ((st2.destructs = st.destructs + 1 ↔
         (op = Op.sharedDecOp ∨ op = Op.valueDecForSharedToWeakOp) ∧
         to_value_count st.c = 1) ∧
       (st2.deallocs = st.deallocs + 1 ↔
         (op = Op.sharedDecOp ∨ op = Op.weakDecOp) ∧
         to_control_count st.c = 1))) := by
  have hinv : Inv st := inv_runFrom inv_init (by rwa [run] at h)
  obtain ⟨h1, h2, h3, h4, h5⟩ := hinv
  exact ⟨by omega, by omega, by omega, by omega, by omega,
    fun hs => step_callbacks ⟨h1, h2, h3, h4, h5⟩ hs⟩

/-- Witness for C1: after one `weak_inc`, a `shared_dec` fires destruct
only (weak holder remains), as the precise-firing clause dictates. -/
theorem counter_callbacks_once_witness :
    (0 : ℕ) ≤ 1 ∧
    (0 : ℕ) ≤ 1 ∧
    (0 : ℕ) ≤ 0 ∧
    ((0 : ℕ) = 1 ↔ (1 : ℕ) = 0) ∧
    ((0 : ℕ) = 1 ↔ (1 : ℕ) + 1 = 0) ∧
    (step Op.sharedDecOp ⟨1, 1, 8589934593, 0, 0⟩ =
        some ⟨0, 1, 4294967296, 1, 0⟩ →
      (((1 : ℕ) = 0 + 1 ↔
         (Op.sharedDecOp = Op.sharedDecOp ∨
          Op.sharedDecOp = Op.valueDecForSharedToWeakOp) ∧
         to_value_count 8589934593 = 1) ∧
       ((0 : ℕ) = 0 + 1 ↔
         (Op.sharedDecOp = Op.sharedDecOp ∨ Op.sharedDecOp = Op.weakDecOp) ∧
         to_control_count 8589934593 = 1))) :=
  counter_callbacks_once [Op.weakIncOp] Op.sharedDecOp
    ⟨1, 1, 8589934593, 0, 0⟩ ⟨0, 1, 4294967296, 1, 0⟩ (by decide)

/-- C2: at every reachable counter state holding at least one strong
reference, `shared_dec` removes exactly one from each half, and its
callbacks follow the claimed classification: both destruct and
deallocate exactly when the pre-decrement word equals one shared
quantum (equivalently, both halves equal 1), destruct alone when only
the value half equals 1, and nothing otherwise. -/
theorem sharedDec_reachable_spec (ops : List Op) (st : CState)
    (h : run ops = some st) (hv : 1 ≤ to_value_count st.c) :
    to_value_count (sharedDec st.c).1 = to_value_count st.c - 1 ∧
    to_control_count (sharedDec st.c).1 = to_control_count st.c - 1 ∧
    (st.c = shared_one ↔ to_value_count st.c = 1 ∧ to_control_count st.c = 1) ∧
    (st.c = shared_one →
      (sharedDec st.c).2 = [Callback.destruct, Callback.deallocate]) ∧
    (st.c ≠ shared_one → to_value_count st.c = 1 →
      (sharedDec st.c).2 = [Callback.destruct]) ∧
    (2 ≤ to_value_count st.c → (sharedDec st.c).2 = []) := by
  have hinv : Inv st := inv_runFrom inv_init (by rwa [run] at h)
  obtain ⟨h1, h2, h3, _, _⟩ := hinv
  have hsw : st.s + st.w ≠ 0 := by
    intro h0
    rcases h2 h0 with hc | hc <;> rw [hc] at hv <;> revert hv <;> decide
  have hcc : st.c = enc st.s st.w := h1 hsw
  have hval : to_value_count st.c = st.s := by
    rw [hcc]
    exact to_value_count_enc h3
  have hctl : to_control_count st.c = st.s + st.w := by
    rw [hcc]
    exact to_control_count_enc h3
  have hs1 : 1 ≤ st.s := by rw [hval] at hv; exact hv
  refine ⟨?_, ?_, ?_, ?_, ?_, ?_⟩
  · simp only [hcc, sharedDec_enc hs1 h3]
    rw [to_value_count_enc (show st.s - 1 + st.w ≤ ceiling by omega),
      to_value_count_enc h3]
  · simp only [hcc, sharedDec_enc hs1 h3]
    rw [to_control_count_enc (show st.s - 1 + st.w ≤ ceiling by omega),
      to_control_count_enc h3]
    omega
  · rw [hcc, enc_eq_shared_one_iff h3, to_value_count_enc h3, to_control_count_enc h3]
    omega
  · intro he
    rw [hcc] at he
    have hx := (enc_eq_shared_one_iff h3).mp he
    simp only [hcc, sharedDec_enc hs1 h3]
    rw [if_pos hx]
  · intro hne h1v
    rw [hcc] at hne
    rw [hval] at h1v
    have hx : ¬(st.s = 1 ∧ st.w = 0) := fun hx => hne ((enc_eq_shared_one_iff h3).mpr hx)
    simp only [hcc, sharedDec_enc hs1 h3]
    rw [if_neg hx, if_pos h1v]
  · intro h2v
    rw [hval] at h2v
    simp only [hcc, sharedDec_enc hs1 h3]
    rw [if_neg (by omega), if_neg (by omega)]

/-- Witness for C2 at the initial state (the sole strong holder). -/
theorem sharedDec_reachable_spec_witness :
    to_value_count (sharedDec 4294967297).1 = to_value_count 4294967297 - 1 ∧
    to_control_count (sharedDec 4294967297).1 = to_control_count 4294967297 - 1 ∧
    ((4294967297 : ℕ) = shared_one ↔
      to_value_count 4294967297 = 1 ∧ to_control_count 4294967297 = 1) ∧
    ((4294967297 : ℕ) = shared_one →
      (sharedDec 4294967297).2 = [Callback.destruct, Callback.deallocate]) ∧
    ((4294967297 : ℕ) ≠ shared_one → to_value_count 4294967297 = 1 →
      (sharedDec 4294967297).2 = [Callback.destruct]) ∧
    (2 ≤ to_value_count 4294967297 → (sharedDec 4294967297).2 = []) :=
  sharedDec_reachable_spec [] init rfl (by decide)

/-- C4: at every reachable counter state with head-room in the control
half, `shared_inc_if_nonzero` returns `no_inc` and leaves the counter
word untouched exactly when the observed value half is zero; otherwise
it adds one shared quantum — one to each half — and reports
`added_shared_inc`.  The sequential embedding applies the update in one
step, so no partial update is ever visible. -/
theorem sharedIncIfNonzero_reachable_spec (ops : List Op) (st : CState)
    (h : run ops = some st) (hroom : to_control_count st.c < ceiling) :
    (to_value_count st.c = 0 →
      sharedIncIfNonzero st.c = (st.c, SharedIncIfNonzeroResult.no_inc)) ∧
    (1 ≤ to_value_count st.c →
      (sharedIncIfNonzero st.c).2 = SharedIncIfNonzeroResult.added_shared_inc ∧
      to_value_count (sharedIncIfNonzero st.c).1 = to_value_count st.c + 1 ∧
      to_control_count (sharedIncIfNonzero st.c).1 = to_control_count st.c + 1) := by
  have hinv : Inv st := inv_runFrom inv_init (by rwa [run] at h)
  obtain ⟨h1, h2, h3, _, _⟩ := hinv
  constructor
  · intro h0
    rw [sharedIncIfNonzero, if_neg (by omega)]
  · intro hv
    have hsw : st.s + st.w ≠ 0 := by
      intro h0
      rcases h2 h0 with hc | hc <;> rw [hc] at hv <;> revert hv <;> decide
    have hcc : st.c = enc st.s st.w := h1 hsw
    have hval : to_value_count st.c = st.s := by
      rw [hcc]
      exact to_value_count_enc h3
    have hctl : to_control_count st.c = st.s + st.w := by
      rw [hcc]
      exact to_control_count_enc h3
    have hs1 : 1 ≤ st.s := by rw [hval] at hv; exact hv
    have hlt : st.s + st.w < ceiling := by rw [hctl] at hroom; exact hroom
    refine ⟨?_, ?_, ?_⟩
    · simp only [hcc, sharedIncIfNonzero_enc_pos hs1 hlt]
    · simp only [hcc, sharedIncIfNonzero_enc_pos hs1 hlt]
      rw [to_value_count_enc (show st.s + 1 + st.w ≤ ceiling by omega),
        to_value_count_enc h3]
    · simp only [hcc, sharedIncIfNonzero_enc_pos hs1 hlt]
      rw [to_control_count_enc (show st.s + 1 + st.w ≤ ceiling by omega),
        to_control_count_enc h3]
      omega

/-- Witness for C4 at the initial state. -/
theorem sharedIncIfNonzero_reachable_spec_witness :
    (to_value_count 4294967297 = 0 →
      sharedIncIfNonzero 4294967297 = (4294967297, SharedIncIfNonzeroResult.no_inc)) ∧
    (1 ≤ to_value_count 4294967297 →
      (sharedIncIfNonzero 4294967297).2 = SharedIncIfNonzeroResult.added_shared_inc ∧
      to_value_count (sharedIncIfNonzero 4294967297).1 = to_value_count 4294967297 + 1 ∧
      to_control_count (sharedIncIfNonzero 4294967297).1 =
        to_control_count 4294967297 + 1) :=
  sharedIncIfNonzero_reachable_spec [] init rfl (by decide)


/-- C8 counterexample: at the state holding exactly one control unit
(`weak_one`), the fast-path `weak_dec` skips the subtraction, so the
(freed) counter word it leaves differs from the plain variant's — both
still deallocate.  This refutes the claim that both variants leave the
same final counter value at every state. -/
theorem weakDec_fastpath_counterexample :
    (weakDec 4294967296).1 ≠ (weakDecPlain 4294967296).1 ∧
    (weakDec 4294967296).1 = 4294967296 ∧
    (weakDecPlain 4294967296).1 = 0 ∧
    (weakDec 4294967296).2 = [Callback.deallocate] ∧
    (weakDecPlain 4294967296).2 = [Callback.deallocate] := by
  decide

/-- C8 amended: for every counter state the fast-path `weak_dec` and the
plain variant invoke deallocate under exactly the same condition, and
whenever deallocate is not invoked they also leave the same final
counter value; when deallocate fires, the fast path leaves the freed
word at one control unit while the plain variant leaves zero — a
difference with no observer, since the block is deallocated. -/
theorem weakDec_fastpath_equiv (c : ℕ) :
    (weakDec c).2 = (weakDecPlain c).2 ∧
    ((weakDec c).1 = (weakDecPlain c).1 ∨
      ((weakDec c).2 = [Callback.deallocate] ∧
       (weakDec c).1 = weak_one ∧ (weakDecPlain c).1 = 0)) := by
  rcases Decidable.em (c = weak_one) with h | h
  · subst h
    exact ⟨by decide, Or.inr (by decide)⟩
  · rw [weakDec, weakDecPlain, if_neg h, if_neg h]
    exact ⟨rfl, Or.inl rfl⟩

/-! ### shared_ptr copy assignment (C10)

`sh::shared_ptr` stores a single value pointer; its static helpers
`increment`/`decrement` are no-ops on null and otherwise call
`shared_inc`/`shared_dec` on the control block derived from the value.
`operator=` performs `increment(other.m_value); decrement(m_value);
m_value = other.m_value;` in that order.  The embedding tracks the
pointer as a `Nat` (0 = null) together with the counter word of the
single pointed-to control block. -/

/-- `sh::shared_ptr::increment`: null check, then `shared_inc`. -/
def sp_increment (v c : ℕ) : ℕ :=
  if v = 0 then c else sharedInc c

/-- `sh::shared_ptr::decrement`: null check, then `shared_dec`. -/
def sp_decrement (v c : ℕ) : ℕ × List Callback :=
  if v = 0 then (c, []) else sharedDec c

/-- `sh::shared_ptr::operator=` (copy): increment the source, then
decrement the destination, then adopt the source pointer.  Returns the
new stored pointer, the counter word, and the callbacks fired. -/
def sp_copy_assign (dst src c : ℕ) : ℕ × ℕ × List Callback :=
  let c1 := sp_increment src c
  let r := sp_decrement dst c1
  (src, r.1, r.2)

theorem subWrap_addWrap {q c : ℕ} (hq : q ≤ wordMod) (hc : c < wordMod) :
    subWrap q (addWrap q c) = c := by
  simp only [subWrap, addWrap, wordMod] at *
  omega

/-- C10: because copy-assignment increments the source before
decrementing the destination, self-assignment of any `shared_ptr`
(including one holding the last strong reference) leaves the stored
pointer and the counter word unchanged and fires neither destruct nor
deallocate. -/
theorem sp_self_assign (v c : ℕ) (hc : c < wordMod)
    (hv : v ≠ 0 → 1 ≤ to_value_count c) :
    sp_copy_assign v v c = (v, c, []) := by
  rcases Decidable.em (v = 0) with h0 | h0
  · subst h0
    rfl
  · have hv1 := hv h0
    have hval1 : to_value_count (addWrap shared_one c) ≠ 1 := by
      simp only [to_value_count, addWrap, shared_one, wordMod, halfMod] at *
      omega
    have hne : addWrap shared_one c ≠ shared_one := by
      intro he
      apply hval1
      rw [he]
      decide
    have hdec : sharedDec (sharedInc c) = (c, []) := by
      simp only [sharedDec, sharedInc]
      rw [if_neg hne, if_neg hval1,
        subWrap_addWrap (show shared_one ≤ wordMod by decide) hc]
    simp only [sp_copy_assign, sp_increment, sp_decrement, if_neg h0, hdec]

/-- Witness for C10 at a pointer holding the last strong reference. -/
theorem sp_self_assign_witness :
    sp_copy_assign 1 1 4294967297 = (1, 4294967297, []) :=
  sp_self_assign 1 4294967297 (by decide) (fun h => by decide)



/-! ### The atomic pointer wrappers

`sh::pointer::atomic_convertible_control` (single-word) and
`sh::pointer::atomic_control_and_value` (double-word) guard their state
with a spinlock bit stolen from the control-pointer word (`bit_locked =
0b01`); the double-word variant additionally owns a notify-toggle bit
(`bit_notify = 0b10`).  The sequential embedding treats each public
operation as one atomic lock/mutate/unlock round: states are the at-rest
(unlocked) words, pointers are `Nat` (0 = null, alignment keeps the two
low bits clear), and the Counter increments/decrements each operation
performs through its `Policy` are recorded as an event list. -/

/-- One policy-level reference-count adjustment on the counter at a
given (non-null) pointer. -/
inductive RefEvent where
  | sharedIncEv (p : ℕ)
  | sharedDecEv (p : ℕ)
  | weakIncEv (p : ℕ)
  | weakDecEv (p : ℕ)
deriving DecidableEq, Repr

/-- The `Policy` template parameter: which Counter adjustment
`increment`/`decrement` perform. -/
structure Policy where
  increment : ℕ → List RefEvent
  decrement : ℕ → List RefEvent

/-- `sh::pointer::shared_policy`: null-checked `shared_inc`/`shared_dec`. -/
def sharedPolicy : Policy where
  increment := fun p => if p = 0 then [] else [RefEvent.sharedIncEv p]
  decrement := fun p => if p = 0 then [] else [RefEvent.sharedDecEv p]

/-- `sh::pointer::weak_policy`: null-checked `weak_inc`/`weak_dec`. -/
def weakPolicy : Policy where
  increment := fun p => if p = 0 then [] else [RefEvent.weakIncEv p]
  decrement := fun p => if p = 0 then [] else [RefEvent.weakDecEv p]

/-- `meta & ~bit_locked`: clear the lock bit (bit 0). -/
def clearLock (m : ℕ) : ℕ := m - m % 2

/-- `meta & ~bit_notify`: clear the notify-toggle bit (bit 1). -/
def clearNotify (m : ℕ) : ℕ := m - 2 * (m / 2 % 2)

/-- `meta ^ bit_notify`: flip the notify-toggle bit. -/
def xorNotify (m : ℕ) : ℕ := m ^^^ 2

/-- The notify-toggle bit of a lock word. -/
def notifyBit (m : ℕ) : Bool := m.testBit 1

/-- The memory orderings of `std::memory_order`. -/
inductive MemOrder where
  | relaxed
  | consume
  | acquire
  | release
  | acqRel
  | seqCst
deriving DecidableEq, Repr

/-- State of `atomic_convertible_control`: the single at-rest word
`m_ctrl` (control pointer; lock bit clear between operations). -/
structure NarrowAtomic where
  mctrl : ℕ
deriving DecidableEq, Repr

/-- Result of the single-word `load`: the returned pointer, the
(restored) state, the Counter adjustments performed, and the memory
order of the final unlock-store. -/
structure NarrowLoadResult where
  result : ℕ
  state : NarrowAtomic
  events : List RefEvent
  unlockOrder : MemOrder
deriving DecidableEq, Repr

/-- `atomic_convertible_control::load`: lock, increment the held control
under the lock, unlock with `memory_order_seq_cst` (storing the same
pointer back), and return the pointer with its fresh increment. -/
def narrowLoad (P : Policy) (st : NarrowAtomic) : NarrowLoadResult :=
  let ctrl := clearLock st.mctrl
  { result := ctrl
    state := { mctrl := ctrl }
    events := P.increment ctrl
    unlockOrder := MemOrder.seqCst }

/-- `atomic_convertible_control::store`: lock, unlock-store the desired
pointer (inheriting its reference), then decrement the previous one. -/
def narrowStore (P : Policy) (desired : ℕ) (st : NarrowAtomic) :
    NarrowAtomic × List RefEvent :=
  let previous := clearLock st.mctrl
  ({ mctrl := desired }, P.decrement previous)

/-- `atomic_convertible_control::exchange`: a direct compare-exchange of
the unlocked word for the desired pointer; the previous pointer keeps
its reference and the desired one is inherited, so no Counter
adjustment occurs. -/
def narrowExchange (_P : Policy) (desired : ℕ) (st : NarrowAtomic) :
    ℕ × NarrowAtomic × List RefEvent :=
  let previous := clearLock st.mctrl
  (previous, { mctrl := desired }, [])

/-- Result of the single-word `compare_exchange_strong`. -/
structure NarrowCasResult where
  state : NarrowAtomic
  success : Bool
  expectedOut : ℕ
  events : List RefEvent
deriving DecidableEq, Repr

/-- `atomic_convertible_control::compare_exchange_strong`: on success
install the desired pointer (inheriting its reference) and decrement the
replaced control; on failure increment the witnessed control under the
lock, restore the word, decrement the caller's old expected reference,
report the witnessed value through expected, and decrement the unused
desired reference. -/
def narrowCompareExchange (P : Policy) (expected desired : ℕ)
    (st : NarrowAtomic) : NarrowCasResult :=
  let ctrl := clearLock st.mctrl
  if ctrl = expected then
    { state := { mctrl := desired }
      success := true
      expectedOut := expected
      events := P.decrement ctrl }
  else
    { state := { mctrl := ctrl }
      success := false
      expectedOut := ctrl
      events := P.increment ctrl ++ (P.decrement expected ++ P.decrement desired) }

/-- `atomic_convertible_control::~atomic_convertible_control`: decrement
the held control (the raw loaded word; lock bit clear at rest). -/
def narrowDestructor (P : Policy) (st : NarrowAtomic) : List RefEvent :=
  P.decrement st.mctrl

/-- State of `atomic_control_and_value`: the at-rest lock word `m_ctrl`
(control pointer plus possibly the notify bit) and the plain value word
`m_value`. -/
structure WideAtomic where
  mctrl : ℕ
  mvalue : ℕ
deriving DecidableEq, Repr

/-- Result of the double-word `load`. -/
structure WideLoadResult where
  ctrl : ℕ
  value : ℕ
  state : WideAtomic
  events : List RefEvent
  unlockOrder : MemOrder
deriving DecidableEq, Repr

/-- `atomic_control_and_value::load`: lock, increment the held control,
copy the value word, unlock-store the original meta word with
`memory_order_release`, and return both pointers. -/
def wideLoad (P : Policy) (st : WideAtomic) : WideLoadResult :=
  let ctrlMeta := clearLock st.mctrl
  let ctrl := clearNotify ctrlMeta
  { ctrl := ctrl
    value := st.mvalue
    state := { mctrl := ctrlMeta, mvalue := st.mvalue }
    events := P.increment ctrl
    unlockOrder := MemOrder.release }

/-- `atomic_control_and_value::store`: lock; if the control pointer is
unchanged while the value changes, unlock-store the previous meta word
with the notify bit flipped, else unlock-store the desired pointer's
clean bit pattern; then decrement the previous control. -/
def wideStore (P : Policy) (desiredCtrl desiredValue : ℕ) (st : WideAtomic) :
    WideAtomic × List RefEvent :=
  let ctrlMeta := clearLock st.mctrl
  let previousCtrl := clearNotify ctrlMeta
  let newState : WideAtomic :=
    if previousCtrl = desiredCtrl ∧ st.mvalue ≠ desiredValue then
      { mctrl := xorNotify ctrlMeta, mvalue := desiredValue }
    else
      { mctrl := desiredCtrl, mvalue := desiredValue }
  (newState, P.decrement previousCtrl)

/-- `atomic_control_and_value::exchange`: like `store` but the previous
pair is returned retaining its reference, so no Counter adjustment. -/
def wideExchange (_P : Policy) (desiredCtrl desiredValue : ℕ) (st : WideAtomic) :
    (ℕ × ℕ) × WideAtomic × List RefEvent :=
  let ctrlMeta := clearLock st.mctrl
  let ctrl := clearNotify ctrlMeta
  let newState : WideAtomic :=
    if ctrl = desiredCtrl ∧ st.mvalue ≠ desiredValue then
      { mctrl := xorNotify ctrlMeta, mvalue := desiredValue }
    else
      { mctrl := desiredCtrl, mvalue := desiredValue }
  ((ctrl, st.mvalue), newState, [])

/-- Result of the double-word `compare_exchange_strong`. -/
structure WideCasResult where
  state : WideAtomic
  success : Bool
  expectedCtrlOut : ℕ
  expectedValueOut : ℕ
  events : List RefEvent
deriving DecidableEq, Repr

/-- `atomic_control_and_value::compare_exchange_strong`: success when
both witnessed words match the expectations; the success unlock follows
the same notify-toggle rule as `store`, and the replaced control is
decremented.  On failure the witnessed pair is reported through the
expected out-parameters with a fresh increment on the witnessed control,
the word is restored (meta bits retained), and the old expected and the
unused desired references are decremented. -/
def wideCompareExchange (P : Policy) (expectedCtrl expectedValue : ℕ)
    (desiredCtrl desiredValue : ℕ) (st : WideAtomic) : WideCasResult :=
  let ctrlMeta := clearLock st.mctrl
  let ctrl := clearNotify ctrlMeta
  if ctrl = expectedCtrl ∧ st.mvalue = expectedValue then
    { state :=
        if ctrl = desiredCtrl ∧ st.mvalue ≠ desiredValue then
          { mctrl := xorNotify ctrlMeta, mvalue := desiredValue }
        else
          { mctrl := desiredCtrl, mvalue := desiredValue }
      success := true
      expectedCtrlOut := expectedCtrl
      expectedValueOut := expectedValue
      events := P.decrement ctrl }
  else
    { state := { mctrl := ctrlMeta, mvalue := st.mvalue }
      success := false
      expectedCtrlOut := ctrl
      expectedValueOut := st.mvalue
      events := P.increment ctrl ++ (P.decrement expectedCtrl ++ P.decrement desiredCtrl) }

/-- `atomic_control_and_value::~atomic_control_and_value`: decrement the
held control after stripping the notify bit. -/
def wideDestructor (P : Policy) (st : WideAtomic) : List RefEvent :=
  P.decrement (clearNotify st.mctrl)



theorem clearLock_of_unlocked {m : ℕ} (h : m % 2 = 0) : clearLock m = m := by
  simp only [clearLock]
  omega

theorem notifyBit_xorNotify (m : ℕ) : notifyBit (xorNotify m) = !notifyBit m := by
  rw [notifyBit, notifyBit, xorNotify, Nat.testBit_xor,
    show (2 : ℕ).testBit 1 = true by decide, Bool.xor_true]

theorem notifyBit_of_aligned {p : ℕ} (h : p % 4 = 0) : notifyBit p = false := by
  rw [notifyBit, Nat.testBit_succ, Nat.testBit_zero,
    show p / 2 % 2 = 0 by omega]
  decide

/-- C5 counterexample: storing the same control pointer and the same
value pointer onto a state whose notify bit is set clears the bit, even
though the toggle condition (same control, different value) is false —
so the bit is not preserved in "every other case" as claimed.  State:
lock word 6 (control pointer 4 with notify bit set), value 0; operation:
`store(4, 0)`. -/
theorem wideStore_notify_counterexample :
    notifyBit (WideAtomic.mk 6 0).mctrl = true ∧
    ¬(clearNotify (clearLock (WideAtomic.mk 6 0).mctrl) = 4 ∧
        (WideAtomic.mk 6 0).mvalue ≠ 0) ∧
    notifyBit ((wideStore sharedPolicy 4 0 (WideAtomic.mk 6 0)).1.mctrl) = false := by
  refine ⟨by decide, ?_, by decide⟩
  intro hx
  exact absurd rfl hx.2

/-- C5 amended: for `store`, `exchange`, and successful
`compare_exchange` on the double-word atomic, the resulting notify bit
is the flip of the previous one exactly when the operation leaves the
control pointer identity unchanged while changing the value pointer; in
every other case these operations clear the notify bit (the unlock
stores the desired control pointer's clean bit pattern) rather than
preserving it.  (Read-only `load` and failed `compare_exchange` restore
the meta word, preserving the bit.) -/
theorem notify_toggle_spec (P : Policy) (st : WideAtomic)
    (expectedCtrl expectedValue desiredCtrl desiredValue : ℕ)
    (hUnlocked : st.mctrl % 2 = 0) (hAligned : desiredCtrl % 4 = 0) :
    (notifyBit (wideStore P desiredCtrl desiredValue st).1.mctrl =
      if clearNotify st.mctrl = desiredCtrl ∧ st.mvalue ≠ desiredValue
      then !notifyBit st.mctrl else false) ∧
    (notifyBit (wideExchange P desiredCtrl desiredValue st).2.1.mctrl =
      if clearNotify st.mctrl = desiredCtrl ∧ st.mvalue ≠ desiredValue
      then !notifyBit st.mctrl else false) ∧
    ((clearNotify st.mctrl = expectedCtrl ∧ st.mvalue = expectedValue) →
      notifyBit (wideCompareExchange P expectedCtrl expectedValue
          desiredCtrl desiredValue st).state.mctrl =
        if clearNotify st.mctrl = desiredCtrl ∧ st.mvalue ≠ desiredValue
        then !notifyBit st.mctrl else false) := by
  have hc : clearLock st.mctrl = st.mctrl := clearLock_of_unlocked hUnlocked
  refine ⟨?_, ?_, ?_⟩
  · simp only [wideStore, hc]
    rcases Decidable.em (clearNotify st.mctrl = desiredCtrl ∧ st.mvalue ≠ desiredValue)
      with ht | ht
    · rw [if_pos ht, if_pos ht]
      exact notifyBit_xorNotify st.mctrl
    · rw [if_neg ht, if_neg ht]
      exact notifyBit_of_aligned hAligned
  · simp only [wideExchange, hc]
    rcases Decidable.em (clearNotify st.mctrl = desiredCtrl ∧ st.mvalue ≠ desiredValue)
      with ht | ht
    · rw [if_pos ht, if_pos ht]
      exact notifyBit_xorNotify st.mctrl
    · rw [if_neg ht, if_neg ht]
      exact notifyBit_of_aligned hAligned
  · intro hexp
    simp only [wideCompareExchange, hc]
    rw [if_pos hexp]
    rcases Decidable.em (clearNotify st.mctrl = desiredCtrl ∧ st.mvalue ≠ desiredValue)
      with ht | ht
    · rw [if_pos ht, if_pos ht]
      exact notifyBit_xorNotify st.mctrl
    · rw [if_neg ht, if_neg ht]
      exact notifyBit_of_aligned hAligned

/-- Witness for the amended C5: a store of the same control with a new
value flips the (clear) notify bit to set. -/
theorem notify_toggle_spec_witness :
    (notifyBit (wideStore sharedPolicy 4 8 (WideAtomic.mk 4 0)).1.mctrl =
      if clearNotify (WideAtomic.mk 4 0).mctrl = 4 ∧ (WideAtomic.mk 4 0).mvalue ≠ 8
      then !notifyBit (WideAtomic.mk 4 0).mctrl else false) ∧
    (notifyBit (wideExchange sharedPolicy 4 8 (WideAtomic.mk 4 0)).2.1.mctrl =
      if clearNotify (WideAtomic.mk 4 0).mctrl = 4 ∧ (WideAtomic.mk 4 0).mvalue ≠ 8
      then !notifyBit (WideAtomic.mk 4 0).mctrl else false) ∧
    ((clearNotify (WideAtomic.mk 4 0).mctrl = 4 ∧ (WideAtomic.mk 4 0).mvalue = 0) →
      notifyBit (wideCompareExchange sharedPolicy 4 0 4 8 (WideAtomic.mk 4 0)).state.mctrl =
        if clearNotify (WideAtomic.mk 4 0).mctrl = 4 ∧ (WideAtomic.mk 4 0).mvalue ≠ 8
        then !notifyBit (WideAtomic.mk 4 0).mctrl else false) :=
  notify_toggle_spec sharedPolicy (WideAtomic.mk 4 0) 4 0 4 8 (by decide) (by decide)

/-- C6 counterexample: the unlock-store ending the double-word atomic's
read-only `load` is issued with `memory_order_release`, not
sequentially-consistent ordering. -/
theorem wideLoad_unlock_counterexample :
    (wideLoad sharedPolicy (WideAtomic.mk 0 0)).unlockOrder ≠ MemOrder.seqCst := by
  decide

/-- C6 amended: the double-word atomic's `load` issues its final
unlock-store with `memory_order_release`; it is the single-word atomic's
`load` whose unlock-store is sequentially consistent (to keep the
increment performed under the lock from reordering past the unlock). -/
theorem load_unlock_orders (P : Policy) (stw : WideAtomic) (stn : NarrowAtomic) :
    (wideLoad P stw).unlockOrder = MemOrder.release ∧
    (narrowLoad P stn).unlockOrder = MemOrder.seqCst :=
  ⟨rfl, rfl⟩


/-- Net reference-count contribution of one event to the counter at
pointer `p`. -/
def eventDelta (p : ℕ) : RefEvent → ℤ
  | RefEvent.sharedIncEv q => if p = q then 1 else 0
  | RefEvent.weakIncEv q => if p = q then 1 else 0
  | RefEvent.sharedDecEv q => if p = q then -1 else 0
  | RefEvent.weakDecEv q => if p = q then -1 else 0

/-- Net reference-count contribution of a list of events to the counter
at pointer `p`. -/
def eventsDelta (es : List RefEvent) (p : ℕ) : ℤ :=
  (es.map (eventDelta p)).sum

theorem eventsDelta_append (es fs : List RefEvent) (p : ℕ) :
    eventsDelta (es ++ fs) p = eventsDelta es p + eventsDelta fs p := by
  simp [eventsDelta]

theorem eventsDelta_inc (P : Policy) (hP : P = sharedPolicy ∨ P = weakPolicy)
    (q p : ℕ) (hp : p ≠ 0) :
    eventsDelta (P.increment q) p = if p = q then 1 else 0 := by
  rcases hP with rfl | rfl
  · simp only [sharedPolicy]
    rcases Decidable.em (q = 0) with h0 | h0
    · subst h0
      rw [if_pos rfl, if_neg hp]
      rfl
    · rw [if_neg h0]
      simp [eventsDelta, eventDelta]
  · simp only [weakPolicy]
    rcases Decidable.em (q = 0) with h0 | h0
    · subst h0
      rw [if_pos rfl, if_neg hp]
      rfl
    · rw [if_neg h0]
      simp [eventsDelta, eventDelta]

theorem eventsDelta_dec (P : Policy) (hP : P = sharedPolicy ∨ P = weakPolicy)
    (q p : ℕ) (hp : p ≠ 0) :
    eventsDelta (P.decrement q) p = if p = q then -1 else 0 := by
  rcases hP with rfl | rfl
  · simp only [sharedPolicy]
    rcases Decidable.em (q = 0) with h0 | h0
    · subst h0
      rw [if_pos rfl, if_neg hp]
      rfl
    · rw [if_neg h0]
      simp [eventsDelta, eventDelta]
  · simp only [weakPolicy]
    rcases Decidable.em (q = 0) with h0 | h0
    · subst h0
      rw [if_pos rfl, if_neg hp]
      rfl
    · rw [if_neg h0]
      simp [eventsDelta, eventDelta]

/-- C7: the single-word `compare_exchange` succeeds exactly when the
witnessed control equals `expected`.  On success it installs `desired`
(inheriting its reference: no increment appears), leaves `expected`
untouched, and the net count change at any non-null pointer is one
decrement of the replaced control.  On failure the state is restored,
the witnessed control is written into the expected out-parameter, and
the net change is a fresh increment on the witnessed control, a
decrement of the reference previously held by `expected`, and a
decrement of the caller's unused `desired` reference. -/
theorem narrowCas_refcount_spec (P : Policy)
    (hP : P = sharedPolicy ∨ P = weakPolicy)
    (expected desired : ℕ) (st : NarrowAtomic) (p : ℕ)
    (hUnlocked : st.mctrl % 2 = 0) (hp : p ≠ 0) :
    ((narrowCompareExchange P expected desired st).success = true ↔
      st.mctrl = expected) ∧
    ((narrowCompareExchange P expected desired st).success = true →
      (narrowCompareExchange P expected desired st).state.mctrl = desired ∧
      (narrowCompareExchange P expected desired st).expectedOut = expected ∧
      eventsDelta (narrowCompareExchange P expected desired st).events p =
        -(if p = st.mctrl then 1 else 0)) ∧
    ((narrowCompareExchange P expected desired st).success = false →
      (narrowCompareExchange P expected desired st).state.mctrl = st.mctrl ∧
      (narrowCompareExchange P expected desired st).expectedOut = st.mctrl ∧
      eventsDelta (narrowCompareExchange P expected desired st).events p =
        (if p = st.mctrl then 1 else 0) - (if p = expected then 1 else 0)
          - (if p = desired then 1 else 0)) := by
  have hc : clearLock st.mctrl = st.mctrl := clearLock_of_unlocked hUnlocked
  rcases Decidable.em (st.mctrl = expected) with he | he
  · have hr : narrowCompareExchange P expected desired st =
        { state := { mctrl := desired }, success := true, expectedOut := expected,
          events := P.decrement st.mctrl } := by
      simp only [narrowCompareExchange, hc]
      rw [if_pos he]
    rw [hr]
    refine ⟨by simp [he], fun _ => ⟨rfl, rfl, ?_⟩, fun hfalse => absurd hfalse (by simp)⟩
    rw [eventsDelta_dec P hP st.mctrl p hp]
    split_ifs <;> decide
  · have hr : narrowCompareExchange P expected desired st =
        { state := { mctrl := st.mctrl }, success := false, expectedOut := st.mctrl,
          events := P.increment st.mctrl ++
            (P.decrement expected ++ P.decrement desired) } := by
      simp only [narrowCompareExchange, hc]
      rw [if_neg he]
    rw [hr]
    refine ⟨by simp [he], fun htrue => absurd htrue (by simp), fun _ => ⟨rfl, rfl, ?_⟩⟩
    rw [eventsDelta_append, eventsDelta_append,
      eventsDelta_inc P hP st.mctrl p hp,
      eventsDelta_dec P hP expected p hp,
      eventsDelta_dec P hP desired p hp]
    split_ifs <;> decide

/-- Witness for C7: a successful compare-exchange replacing control 4
with control 8, observed at pointer 4. -/
theorem narrowCas_refcount_spec_witness :
    ((narrowCompareExchange sharedPolicy 4 8 (NarrowAtomic.mk 4)).success = true ↔
      (NarrowAtomic.mk 4).mctrl = 4) ∧
    ((narrowCompareExchange sharedPolicy 4 8 (NarrowAtomic.mk 4)).success = true →
      (narrowCompareExchange sharedPolicy 4 8 (NarrowAtomic.mk 4)).state.mctrl = 8 ∧
      (narrowCompareExchange sharedPolicy 4 8 (NarrowAtomic.mk 4)).expectedOut = 4 ∧
      eventsDelta (narrowCompareExchange sharedPolicy 4 8 (NarrowAtomic.mk 4)).events 4 =
        -(if (4 : ℕ) = (NarrowAtomic.mk 4).mctrl then 1 else 0)) ∧
    ((narrowCompareExchange sharedPolicy 4 8 (NarrowAtomic.mk 4)).success = false →
      (narrowCompareExchange sharedPolicy 4 8 (NarrowAtomic.mk 4)).state.mctrl =
        (NarrowAtomic.mk 4).mctrl ∧
      (narrowCompareExchange sharedPolicy 4 8 (NarrowAtomic.mk 4)).expectedOut =
        (NarrowAtomic.mk 4).mctrl ∧
      eventsDelta (narrowCompareExchange sharedPolicy 4 8 (NarrowAtomic.mk 4)).events 4 =
        (if (4 : ℕ) = (NarrowAtomic.mk 4).mctrl then 1 else 0)
          - (if (4 : ℕ) = 4 then 1 else 0) - (if (4 : ℕ) = 8 then 1 else 0)) :=
  narrowCas_refcount_spec sharedPolicy (Or.inl rfl) 4 8 (NarrowAtomic.mk 4) 4
    (by decide) (by decide)

/-- C9: both policies' increment and decrement are no-ops on a null
control pointer, and consequently every atomic operation of either
wrapper performed on or with an empty (null control) pointer adjusts no
counter: the destructor, store, load, exchange and compare-exchange of
the single-word atomic and of the double-word atomic (including a null
word still decorated with the notify bit) produce no reference event and
return the null pointer where one is returned.  All the embedded
operations are total functions. -/
theorem null_atomic_total (P : Policy)
    (hinc : P.increment 0 = []) (hdec : P.decrement 0 = []) :
    sharedPolicy.increment 0 = [] ∧
    sharedPolicy.decrement 0 = [] ∧
    weakPolicy.increment 0 = [] ∧
    weakPolicy.decrement 0 = [] ∧
    narrowDestructor P (NarrowAtomic.mk 0) = [] ∧
    (narrowStore P 0 (NarrowAtomic.mk 0)).2 = [] ∧
    (narrowLoad P (NarrowAtomic.mk 0)).events = [] ∧
    (narrowLoad P (NarrowAtomic.mk 0)).result = 0 ∧
    (narrowExchange P 0 (NarrowAtomic.mk 0)).2.2 = [] ∧
    (narrowCompareExchange P 0 0 (NarrowAtomic.mk 0)).events = [] ∧
    wideDestructor P (WideAtomic.mk 0 0) = [] ∧
    wideDestructor P (WideAtomic.mk 2 0) = [] ∧
    (wideStore P 0 0 (WideAtomic.mk 0 0)).2 = [] ∧
    (wideLoad P (WideAtomic.mk 0 0)).events = [] ∧
    (wideLoad P (WideAtomic.mk 0 0)).ctrl = 0 ∧
    (wideExchange P 0 0 (WideAtomic.mk 0 0)).2.2 = [] ∧
    (wideCompareExchange P 0 0 0 0 (WideAtomic.mk 0 0)).events = [] :=
  ⟨rfl, rfl, rfl, rfl, hdec, hdec, hinc, rfl, rfl, hdec,
   hdec, hdec, hdec, hinc, rfl, rfl, hdec⟩

/-- Witness for C9 at the shared policy. -/
theorem null_atomic_total_witness :
    sharedPolicy.increment 0 = [] ∧
    sharedPolicy.decrement 0 = [] ∧
    weakPolicy.increment 0 = [] ∧
    weakPolicy.decrement 0 = [] ∧
    narrowDestructor sharedPolicy (NarrowAtomic.mk 0) = [] ∧
    (narrowStore sharedPolicy 0 (NarrowAtomic.mk 0)).2 = [] ∧
    (narrowLoad sharedPolicy (NarrowAtomic.mk 0)).events = [] ∧
    (narrowLoad sharedPolicy (NarrowAtomic.mk 0)).result = 0 ∧
    (narrowExchange sharedPolicy 0 (NarrowAtomic.mk 0)).2.2 = [] ∧
    (narrowCompareExchange sharedPolicy 0 0 (NarrowAtomic.mk 0)).events = [] ∧
    wideDestructor sharedPolicy (WideAtomic.mk 0 0) = [] ∧
    wideDestructor sharedPolicy (WideAtomic.mk 2 0) = [] ∧
    (wideStore sharedPolicy 0 0 (WideAtomic.mk 0 0)).2 = [] ∧
    (wideLoad sharedPolicy (WideAtomic.mk 0 0)).events = [] ∧
    (wideLoad sharedPolicy (WideAtomic.mk 0 0)).ctrl = 0 ∧
    (wideExchange sharedPolicy 0 0 (WideAtomic.mk 0 0)).2.2 = [] ∧
    (wideCompareExchange sharedPolicy 0 0 0 0 (WideAtomic.mk 0 0)).events = [] :=
  null_atomic_total sharedPolicy rfl rfl

end ShPointer
